import Mathlib

/-!
# Verification of the vector-db embedding subsystem

Shallow embedding of `src/services/vectordb/controllers/embeddingController.js`
and the `EmbeddingProvider` class (`utils/embeddingProvider.js`, bundled in the
same source file): the chunker, the in-memory embedding cache, batch embedding,
cosine similarity, the SQLite-backed document store and the similarity search.

JavaScript numbers are modelled as rationals (`ℚ`) except where `Math.sqrt`
forces real arithmetic (`ℝ`); JavaScript strings are modelled as `List Char`
(for the chunker, which indexes by character) or as UTF-8 byte lists
(`List ℕ`, for the cache whose keys go through `Buffer.from(text)`).
-/

set_option maxRecDepth 100000

namespace VectorDb

/-! ## JavaScript string primitives -/

/-- The whitespace characters removed by JavaScript's `String.prototype.trim`
(the ASCII subset, which is all that the verified inputs use). -/
def isJsWhitespace (c : Char) : Bool :=
  c = ' ' || c = '\t' || c = '\n' || c = '\r' || c = '\x0b' || c = '\x0c'

/-- `String.prototype.trim`: strip leading and trailing whitespace. -/
def jsTrim (s : List Char) : List Char :=
  ((s.dropWhile isJsWhitespace).reverse.dropWhile isJsWhitespace).reverse

/-- Clamp a JavaScript slice index into `[0, len]`: negative indices count
from the end of the string. -/
def sliceIndex (len : ℕ) (i : ℤ) : ℕ :=
  if i < 0 then (len - (-i).toNat) else min i.toNat len

/-- `String.prototype.slice(start, end)` on a character list. -/
def jsSlice (s : List Char) (start stop : ℤ) : List Char :=
  let a := sliceIndex s.length start
  let b := sliceIndex s.length stop
  (s.take b).drop a

/-! ## Chunker (`chunkText`, controller lines 80–96)

```js
const chunkText = (text, chunkSize = 1000, overlap = 200) => {
  const chunks = [];
  const textLength = text.length;
  for (let i = 0; i < textLength; i += chunkSize - overlap) {
    const chunk = text.slice(i, i + chunkSize);
    if (chunk.trim().length > 0) {
      chunks.push({ text: chunk.trim(), startIndex: i,
                    endIndex: Math.min(i + chunkSize, textLength) });
    }
  }
  return chunks;
};
```

The `for` loop has no parameter validation; when `chunkSize - overlap ≤ 0`
(and the text is non-empty) the index `i` never grows past `textLength`, so
the loop never exits.  The loop is therefore modelled with explicit fuel:
`none` means the iteration budget was exhausted without the loop exiting. -/

structure Chunk where
  text : List Char
  startIndex : ℤ
  endIndex : ℤ
  deriving Repr, DecidableEq

/-- One JS loop iteration state: current index `i`, accumulated chunks. -/
def chunkLoop (text : List Char) (chunkSize overlap : ℤ) :
    ℕ → ℤ → List Chunk → Option (List Chunk)
  | 0, i, acc => if i < (text.length : ℤ) then none else some acc
  | fuel + 1, i, acc =>
    if i < (text.length : ℤ) then
      let chunk := jsSlice text i (i + chunkSize)
      let acc' :=
        if (jsTrim chunk).length > 0 then
          acc ++ [⟨jsTrim chunk, i, min (i + chunkSize) (text.length : ℤ)⟩]
        else acc
      chunkLoop text chunkSize overlap fuel (i + (chunkSize - overlap)) acc'
    else some acc

/-- `chunkText(text, chunkSize, overlap)`, given enough fuel for any
terminating execution (`text.length + 1` iterations suffice whenever the
step `chunkSize - overlap` is at least 1). -/
def chunkText (text : List Char) (chunkSize overlap : ℤ) : Option (List Chunk) :=
  chunkLoop text chunkSize overlap (text.length + 1) 0 []

/-- The window list the specification describes: start offsets
`0, step, 2*step, …` strictly below the text length, each window of
`chunkSize` characters clipped to the text's end, windows with empty trimmed
text dropped. -/
def specWindows (text : List Char) (chunkSize step : ℕ) : List Chunk :=
  ((List.range ((text.length + step - 1) / step)).map (fun j => (j * step : ℕ))).filterMap
    (fun i =>
      let w := (text.drop i).take chunkSize
      if (jsTrim w).length > 0 then
        some ⟨jsTrim w, (i : ℤ), (min (i + chunkSize) text.length : ℕ)⟩
      else none)

/-- Closed form of the terminating loop, used to bridge `chunkLoop` and
`specWindows`: the windows at offsets `i, i+step, i+2*step, …`. -/
def windowsFrom (text : List Char) (chunkSize step i : ℕ) : List Chunk :=
  if h : step = 0 ∨ text.length ≤ i then []
  else
    let w := (text.drop i).take chunkSize
    (if (jsTrim w).length > 0 then
        [⟨jsTrim w, (i : ℤ), (min (i + chunkSize) text.length : ℕ)⟩]
      else []) ++ windowsFrom text chunkSize step (i + step)
termination_by text.length - i
decreasing_by
  push_neg at h
  omega

theorem windowsFrom_of_le {text : List Char} {chunkSize step i : ℕ}
    (h : text.length ≤ i) : windowsFrom text chunkSize step i = [] := by
  rw [windowsFrom]
  simp [h]

theorem windowsFrom_of_lt {text : List Char} {chunkSize step i : ℕ}
    (hstep : 0 < step) (h : i < text.length) :
    windowsFrom text chunkSize step i =
      (let w := (text.drop i).take chunkSize
        if (jsTrim w).length > 0 then
          [⟨jsTrim w, (i : ℤ), (min (i + chunkSize) text.length : ℕ)⟩]
        else []) ++ windowsFrom text chunkSize step (i + step) := by
  rw [windowsFrom]
  have : ¬ (step = 0 ∨ text.length ≤ i) := by omega
  simp only [this, dite_false]

/-- `specWindows` agrees with the recursive closed form (suffix version). -/
theorem windowsFrom_eq_specWindows_drop (text : List Char) (chunkSize step : ℕ)
    (hstep : 0 < step) (k : ℕ) :
    windowsFrom text chunkSize step (k * step) =
      (((List.range ((text.length + step - 1) / step)).map
          (fun j => (j * step : ℕ))).drop k).filterMap
        (fun i =>
          let w := (text.drop i).take chunkSize
          if (jsTrim w).length > 0 then
            some ⟨jsTrim w, (i : ℤ), (min (i + chunkSize) text.length : ℕ)⟩
          else none) := by
  generalize hm : text.length - k * step = m
  induction m using Nat.strong_induction_on generalizing k with
  | _ m ih =>
    by_cases hk : text.length ≤ k * step
    · rw [windowsFrom_of_le hk]
      rw [List.drop_eq_nil_of_le]
      · simp
      · rw [List.length_map, List.length_range]
        -- k is past the offset count: (len + step - 1) / step ≤ k
        have hks : k * step = step * k := by ring
        have : (text.length + step - 1) / step ≤ k := by
          rw [Nat.div_le_iff_le_mul_add_pred hstep]
          omega
        omega
    · push_neg at hk
      have hkcount : k < (text.length + step - 1) / step := by
        have hks : (k + 1) * step = k * step + step := by ring
        have : k + 1 ≤ (text.length + step - 1) / step := by
          rw [Nat.le_div_iff_mul_le hstep]
          omega
        omega
      have hkm : k < ((List.range ((text.length + step - 1) / step)).map
          (fun j => (j * step : ℕ))).length := by
        simpa using hkcount
      rw [windowsFrom_of_lt hstep hk, List.drop_eq_getElem_cons hkm,
        List.filterMap_cons]
      have hget : ((List.range ((text.length + step - 1) / step)).map
          (fun j => (j * step : ℕ)))[k] = k * step := by
        simp
      rw [hget]
      have hsucc : (k + 1) * step = k * step + step := by ring
      have hrec := ih (text.length - (k + 1) * step) (by omega) (k + 1) rfl
      rw [hsucc] at hrec
      rw [hrec]
      simp only []
      split
      · rfl
      · rfl

theorem specWindows_eq_windowsFrom (text : List Char) (chunkSize step : ℕ)
    (hstep : 0 < step) :
    specWindows text chunkSize step = windowsFrom text chunkSize step 0 := by
  have h := windowsFrom_eq_specWindows_drop text chunkSize step hstep 0
  rw [Nat.zero_mul] at h
  rw [h, List.drop_zero]
  rfl

theorem jsSlice_natCast (text : List Char) (a cs : ℕ) (ha : a ≤ text.length) :
    jsSlice text (a : ℤ) ((a : ℤ) + (cs : ℤ)) = (text.drop a).take cs := by
  have hcast : (a : ℤ) + (cs : ℤ) = ((a + cs : ℕ) : ℤ) := by push_cast; ring
  rw [hcast]
  unfold jsSlice sliceIndex
  have h1 : ¬ ((a : ℤ) < 0) := by omega
  have h2 : ¬ (((a + cs : ℕ) : ℤ) < 0) := by omega
  simp only [h1, if_false, h2, Int.toNat_natCast]
  have hmin : min a text.length = a := by omega
  rw [hmin, List.drop_take]
  rw [List.take_eq_take]
  simp only [List.length_drop]
  omega

/-- The loop agrees with the closed form whenever the step is positive and
the fuel covers the remaining iterations. -/
theorem chunkLoop_eq_windowsFrom (text : List Char) (cs ov : ℕ)
    (hov : 0 < ov) (hlt : ov < cs) :
    ∀ (fuel k : ℕ) (acc : List Chunk),
      (text.length : ℤ) - (k * (cs - ov) : ℕ) ≤ fuel →
      chunkLoop text (cs : ℤ) (ov : ℤ) fuel ((k * (cs - ov) : ℕ) : ℤ) acc =
        some (acc ++ windowsFrom text cs (cs - ov) (k * (cs - ov))) := by
  intro fuel
  induction fuel with
  | zero =>
    intro k acc hfuel
    have hge : text.length ≤ k * (cs - ov) := by omega
    rw [chunkLoop]
    have : ¬ (((k * (cs - ov) : ℕ) : ℤ) < (text.length : ℤ)) := by
      push_neg
      exact_mod_cast hge
    rw [if_neg this, windowsFrom_of_le hge, List.append_nil]
  | succ fuel ih =>
    intro k acc hfuel
    by_cases hlt' : k * (cs - ov) < text.length
    · have hcast : ((k * (cs - ov) : ℕ) : ℤ) < (text.length : ℤ) := by
        exact_mod_cast hlt'
      have hslice := jsSlice_natCast text (k * (cs - ov)) cs (le_of_lt hlt')
      have hstep : ((cs : ℤ) - (ov : ℤ)) = ((cs - ov : ℕ) : ℤ) := by omega
      have hsucc : (k + 1) * (cs - ov) = k * (cs - ov) + (cs - ov) := by ring
      have hnext : ((k * (cs - ov) : ℕ) : ℤ) + ((cs : ℤ) - (ov : ℤ)) =
          (((k + 1) * (cs - ov) : ℕ) : ℤ) := by
        rw [hstep]
        rw [hsucc]
        push_cast
        ring
      have hmin : min (((k * (cs - ov) : ℕ) : ℤ) + (cs : ℤ)) (text.length : ℤ) =
          ((min (k * (cs - ov) + cs) text.length : ℕ) : ℤ) := by
        push_cast
        omega
      have hfuel' : (text.length : ℤ) - (((k + 1) * (cs - ov) : ℕ) : ℤ) ≤
          (fuel : ℤ) := by
        omega
      simp only [chunkLoop, hcast, if_true]
      simp only [hslice, hnext, hmin]
      rw [windowsFrom_of_lt (by omega) hlt']
      by_cases htrim : 0 < (jsTrim ((text.drop (k * (cs - ov))).take cs)).length
      · simp only [gt_iff_lt, htrim, if_true]
        rw [ih (k + 1) _ hfuel']
        simp [hsucc, List.append_assoc]
      · simp only [gt_iff_lt, htrim, if_false]
        rw [ih (k + 1) _ hfuel']
        simp [hsucc]
    · rw [chunkLoop]
      push_neg at hlt'
      have : ¬ (((k * (cs - ov) : ℕ) : ℤ) < (text.length : ℤ)) := by
        push_neg
        exact_mod_cast hlt'
      rw [if_neg this, windowsFrom_of_le hlt', List.append_nil]

/-- C5: for every text and valid pair `(chunkSize, overlap)` with
`0 < overlap < chunkSize`, `chunkText` terminates and produces exactly the
windows at start offsets `0, chunkSize-overlap, 2*(chunkSize-overlap), …`
below the text length, each clipped to the text's end, dropping windows with
empty trimmed text; in particular the 250-character string of repeated `'A'`
with `chunkSize=100, overlap=20` yields 4 chunks at offsets
`0, 80, 160, 240`, the last of length 10. -/
theorem chunkText_produces_spec_windows :
    (∀ (text : List Char) (cs ov : ℕ), 0 < ov → ov < cs →
      chunkText text (cs : ℤ) (ov : ℤ) = some (specWindows text cs (cs - ov))) ∧
    ((chunkText (List.replicate 250 'A') 100 20).map
        (fun l => (l.length, l.map Chunk.startIndex,
          l.map (fun c => c.text.length))) =
      some (4, [0, 80, 160, 240], [100, 100, 90, 10])) := by
  constructor
  · intro text cs ov h1 h2
    unfold chunkText
    have h := chunkLoop_eq_windowsFrom text cs ov h1 h2 (text.length + 1) 0 []
      (by simp)
    simp only [Nat.zero_mul, Nat.cast_zero, List.nil_append] at h
    rw [h, specWindows_eq_windowsFrom text cs (cs - ov) (by omega)]
  · decide

/-- Witness for C5 at a concrete input: the 250-`'A'` text with
`chunkSize = 100`, `overlap = 20`. -/
theorem chunkText_produces_spec_windows_witness :
    (0 : ℕ) < 20 ∧ (20 : ℕ) < 100 ∧
      chunkText (List.replicate 250 'A') ((100 : ℕ) : ℤ) ((20 : ℕ) : ℤ) =
        some (specWindows (List.replicate 250 'A') 100 (100 - 20)) :=
  ⟨by decide, by decide,
    chunkText_produces_spec_windows.1 (List.replicate 250 'A') 100 20
      (by decide) (by decide)⟩

/-- C6: the claim says invalid chunking parameters (`overlap ≥ chunkSize`,
or non-positive values) fail with an `InvalidArgument` error.  The code has
no validation at all: with `overlap = chunkSize` and non-empty text the loop
index never advances, so the loop never exits — `chunkLoop` returns `none`
(fuel exhausted) for EVERY iteration budget, and no error is ever raised. -/
theorem chunkText_invalid_params_never_terminates (text : List Char) (cs : ℤ)
    (htext : text ≠ []) :
    (∀ (fuel : ℕ) (acc : List Chunk), chunkLoop text cs cs fuel 0 acc = none) ∧
      chunkText text cs cs = none := by
  have hlen : 0 < text.length := List.length_pos.mpr htext
  have hloop : ∀ (fuel : ℕ) (acc : List Chunk),
      chunkLoop text cs cs fuel 0 acc = none := by
    intro fuel
    induction fuel with
    | zero =>
      intro acc
      rw [chunkLoop]
      rw [if_pos (by exact_mod_cast hlen)]
    | succ fuel ih =>
      intro acc
      rw [chunkLoop]
      rw [if_pos (by exact_mod_cast hlen)]
      have hz : (0 : ℤ) + (cs - cs) = 0 := by ring
      rw [hz]
      exact ih _
  exact ⟨hloop, hloop _ _⟩

/-- Witness for C6: the two-character text `"AA"` with
`chunkSize = overlap = 100`. -/
theorem chunkText_invalid_params_never_terminates_witness :
    chunkText ['A', 'A'] 100 100 = none :=
  (chunkText_invalid_params_never_terminates ['A', 'A'] 100 (by decide)).2

/-! ## Embedding cache (controller lines 148–178)

```js
const embeddingCache = new Map();
const CACHE_MAX_SIZE = parseInt(process.env.CACHE_MAX_SIZE) || 1000;
const CACHE_TTL = parseInt(process.env.CACHE_TTL) || 3600;

const getCachedEmbedding = (text) => {
  if (!process.env.CACHE_EMBEDDINGS === 'true') return null;
  const cacheKey = Buffer.from(text).toString('base64').slice(0, 50);
  const cached = embeddingCache.get(cacheKey);
  if (cached && (Date.now() - cached.timestamp) < CACHE_TTL * 1000) {
    return cached.embedding;
  }
  return null;
};

const setCachedEmbedding = (text, embedding) => {
  if (!process.env.CACHE_EMBEDDINGS === 'true') return;
  const cacheKey = Buffer.from(text).toString('base64').slice(0, 50);
  if (embeddingCache.size >= CACHE_MAX_SIZE) {
    const firstKey = embeddingCache.keys().next().value;
    embeddingCache.delete(firstKey);
  }
  embeddingCache.set(cacheKey, { embedding, timestamp: Date.now() });
};
```

Texts are modelled as UTF-8 byte lists (`Buffer.from(text)`), time as `ℕ`
milliseconds, the `Map` as an insertion-ordered association list (a JS `Map`
iterates in insertion order, and `set` on an existing key keeps its
position). -/

/-- The standard base64 alphabet used by `Buffer.prototype.toString('base64')`. -/
def base64Alphabet : List Char :=
  "ABCDEFGHIJKLMNOPQRSTUVWXYZabcdefghijklmnopqrstuvwxyz0123456789+/".data

def base64Char (n : ℕ) : Char := base64Alphabet.getD n '?'

/-- Base64 encoding of a byte list, with `'='` padding. -/
def base64 : List ℕ → List Char
  | [] => []
  | [b1] => [base64Char (b1 / 4), base64Char (b1 % 4 * 16), '=', '=']
  | [b1, b2] =>
    [base64Char (b1 / 4), base64Char (b1 % 4 * 16 + b2 / 16),
      base64Char (b2 % 16 * 4), '=']
  | b1 :: b2 :: b3 :: rest =>
    base64Char (b1 / 4) :: base64Char (b1 % 4 * 16 + b2 / 16) ::
      base64Char (b2 % 16 * 4 + b3 / 64) :: base64Char (b3 % 64) :: base64 rest

/-- `Buffer.from(text).toString('base64').slice(0, 50)`: the cache key. -/
def cacheKeyOf (text : List ℕ) : List Char := (base64 text).take 50

/-- Configuration read from `process.env` by the cache. -/
structure CacheConfig where
  cacheEmbeddings : Option String
  maxSize : ℕ
  ttl : ℕ

structure CacheEntry where
  embedding : List ℚ
  timestamp : ℕ
  deriving DecidableEq, Repr

/-- The `Map`, as an insertion-ordered association list with unique keys. -/
abbrev EmbeddingCache := List (List Char × CacheEntry)

/-- JavaScript `!v` for an environment variable: `undefined` and the empty
string are falsy, every other string truthy. -/
def jsNotEnv (v : Option String) : Bool :=
  match v with
  | none => true
  | some s => s.isEmpty

/-- JavaScript strict equality `===` between a boolean and a string: the
operands have different runtime types, so the comparison is always `false`
(no coercion under `===`). -/
def jsStrictEqBoolString (_ : Bool) (_ : String) : Bool := false

/-- `Map.prototype.get` (keys are unique, so the first match is the match). -/
def mapGet (c : EmbeddingCache) (k : List Char) : Option CacheEntry :=
  (c.find? (fun e => e.1 = k)).map (·.2)

/-- `Map.prototype.set`: update in place when the key exists (a JS `Map`
keeps the original insertion position), otherwise append. -/
def mapSet (c : EmbeddingCache) (k : List Char) (v : CacheEntry) :
    EmbeddingCache :=
  if c.any (fun e => e.1 = k) then
    c.map (fun e => if e.1 = k then (k, v) else e)
  else c ++ [(k, v)]

/-- `embeddingCache.delete(embeddingCache.keys().next().value)`: remove the
first (oldest-inserted) entry; a no-op on an empty map (`delete(undefined)`). -/
def mapDeleteFirst (c : EmbeddingCache) : EmbeddingCache :=
  match c with
  | [] => []
  | _ :: t => t

/-- `getCachedEmbedding(text)` at time `now`. -/
def getCachedEmbedding (cfg : CacheConfig) (c : EmbeddingCache) (now : ℕ)
    (text : List ℕ) : Option (List ℚ) :=
  if jsStrictEqBoolString (jsNotEnv cfg.cacheEmbeddings) "true" then none
  else
    match mapGet c (cacheKeyOf text) with
    | some cached =>
      if now - cached.timestamp < cfg.ttl * 1000 then some cached.embedding
      else none
    | none => none

/-- `setCachedEmbedding(text, embedding)` at time `now`. -/
def setCachedEmbedding (cfg : CacheConfig) (c : EmbeddingCache) (now : ℕ)
    (text : List ℕ) (embedding : List ℚ) : EmbeddingCache :=
  if jsStrictEqBoolString (jsNotEnv cfg.cacheEmbeddings) "true" then c
  else
    mapSet (if c.length ≥ cfg.maxSize then mapDeleteFirst c else c)
      (cacheKeyOf text) ⟨embedding, now⟩

/-- A sequence of cache inserts (each at time 0). -/
def putMany (cfg : CacheConfig) (c : EmbeddingCache)
    (items : List (List ℕ × List ℚ)) : EmbeddingCache :=
  items.foldl (fun c it => setCachedEmbedding cfg c 0 it.1 it.2) c

theorem mapSet_length (c : EmbeddingCache) (k : List Char) (v : CacheEntry) :
    (mapSet c k v).length = if c.any (fun e => e.1 = k) then c.length
      else c.length + 1 := by
  unfold mapSet
  split
  · simp
  · simp

theorem mapSet_append_of_fresh (c : EmbeddingCache) (k : List Char)
    (v : CacheEntry) (h : k ∉ c.map Prod.fst) : mapSet c k v = c ++ [(k, v)] := by
  have hany : c.any (fun e => e.1 = k) = false := by
    simp only [List.any_eq_false, decide_eq_true_eq]
    intro e he hk
    exact h (hk ▸ List.mem_map_of_mem Prod.fst he)
  unfold mapSet
  simp [hany]

theorem mapDeleteFirst_length (c : EmbeddingCache) :
    (mapDeleteFirst c).length = c.length - 1 := by
  cases c <;> simp [mapDeleteFirst]

theorem setCachedEmbedding_length_le (cfg : CacheConfig) (hmax : 1 ≤ cfg.maxSize)
    (c : EmbeddingCache) (now : ℕ) (text : List ℕ) (emb : List ℚ)
    (hc : c.length ≤ cfg.maxSize) :
    (setCachedEmbedding cfg c now text emb).length ≤ cfg.maxSize := by
  unfold setCachedEmbedding jsStrictEqBoolString
  simp only [Bool.false_eq_true, if_false]
  by_cases hful : c.length ≥ cfg.maxSize
  · rw [if_pos hful, mapSet_length, mapDeleteFirst_length]
    split <;> omega
  · rw [if_neg hful, mapSet_length]
    split <;> omega

theorem putMany_length_le (cfg : CacheConfig) (hmax : 1 ≤ cfg.maxSize)
    (items : List (List ℕ × List ℚ)) (c : EmbeddingCache)
    (hc : c.length ≤ cfg.maxSize) : (putMany cfg c items).length ≤ cfg.maxSize := by
  induction items generalizing c with
  | nil => exact hc
  | cons it rest ih =>
    exact ih _ (setCachedEmbedding_length_le cfg hmax c 0 it.1 it.2 hc)

theorem setCachedEmbedding_at_capacity (cfg : CacheConfig) (c : EmbeddingCache)
    (now : ℕ) (text : List ℕ) (emb : List ℚ)
    (hful : c.length = cfg.maxSize) (hmax : 1 ≤ cfg.maxSize)
    (hfresh : cacheKeyOf text ∉ c.map Prod.fst) :
    setCachedEmbedding cfg c now text emb =
      c.tail ++ [(cacheKeyOf text, ⟨emb, now⟩)] := by
  unfold setCachedEmbedding jsStrictEqBoolString
  simp only [if_false, Bool.false_eq_true]
  rw [if_pos (by omega)]
  have htail : mapDeleteFirst c = c.tail := by
    cases c <;> rfl
  rw [htail, mapSet_append_of_fresh]
  intro hmem
  exact hfresh (List.map_subset Prod.fst (List.tail_subset c) hmem)

theorem putMany_fresh_eq (cfg : CacheConfig) :
    ∀ (items : List (List ℕ × List ℚ)) (c : EmbeddingCache),
      c.length + items.length ≤ cfg.maxSize →
      (∀ it ∈ items, cacheKeyOf it.1 ∉ c.map Prod.fst) →
      (items.map (fun it => cacheKeyOf it.1)).Nodup →
      putMany cfg c items =
        c ++ items.map (fun it => (cacheKeyOf it.1, (⟨it.2, 0⟩ : CacheEntry))) := by
  intro items
  induction items with
  | nil => intro c _ _ _; simp [putMany]
  | cons it rest ih =>
    intro c hlen hfresh hnodup
    have hstep : setCachedEmbedding cfg c 0 it.1 it.2 =
        c ++ [(cacheKeyOf it.1, (⟨it.2, 0⟩ : CacheEntry))] := by
      unfold setCachedEmbedding jsStrictEqBoolString
      simp only [if_false, Bool.false_eq_true]
      rw [if_neg (by simp at hlen ⊢; omega)]
      exact mapSet_append_of_fresh c _ _ (hfresh it (List.mem_cons_self it rest))
    have hrest : putMany cfg c (it :: rest) =
        putMany cfg (c ++ [(cacheKeyOf it.1, (⟨it.2, 0⟩ : CacheEntry))]) rest := by
      simp [putMany, hstep]
    rw [hrest, ih]
    · simp
    · simp at hlen ⊢; omega
    · intro jt hjt
      have h1 : cacheKeyOf jt.1 ∉ c.map Prod.fst :=
        hfresh jt (List.mem_cons_of_mem it hjt)
      rw [List.map_cons] at hnodup
      have hnd := List.nodup_cons.mp hnodup
      have h2 : cacheKeyOf jt.1 ≠ cacheKeyOf it.1 := by
        intro he
        exact hnd.1
          (he ▸ List.mem_map_of_mem (fun x => cacheKeyOf x.1) hjt)
      simp only [List.map_append, List.mem_append, List.map_cons,
        List.map_nil, List.mem_singleton]
      push_neg
      exact ⟨h1, h2⟩
    · rw [List.map_cons] at hnodup
      exact (List.nodup_cons.mp hnodup).2

/-- C4: the claim says that with the cache-enabled flag not set to `"true"`,
`getCachedEmbedding` always returns null and `setCachedEmbedding` is a no-op.
The code's guard is `!process.env.CACHE_EMBEDDINGS === 'true'`, which compares
a BOOLEAN against a STRING under `===` and is therefore always false — for
every configuration, including the flag being unset: the lookup and the
insert both proceed.  Concretely, with `CACHE_EMBEDDINGS` unset, a `set`
followed by a `get` of the same text returns the stored vector instead of
null, and the insert changed the cache. -/
theorem cache_disabled_flag_is_ignored :
    (∀ (cfg : CacheConfig),
      jsStrictEqBoolString (jsNotEnv cfg.cacheEmbeddings) "true" = false) ∧
    setCachedEmbedding ⟨none, 1000, 3600⟩ [] 0 [104, 105] [1, 2] ≠ [] ∧
    getCachedEmbedding ⟨none, 1000, 3600⟩
        (setCachedEmbedding ⟨none, 1000, 3600⟩ [] 0 [104, 105] [1, 2]) 0
        [104, 105] = some [1, 2] :=
  ⟨fun _ => rfl, by decide, by decide⟩

/-- C7: with caching active and `cacheMaxSize ≥ 1`: any sequence of inserts
starting from the empty cache keeps at most `maxSize` entries; an insert with
a fresh key into a cache at capacity evicts exactly the single
oldest-inserted (first) entry and appends the new one; and inserting
`maxSize + 1` entries with pairwise-distinct keys from empty leaves exactly
the last `maxSize` of them, the first-inserted entry evicted.  (`get` is a
pure read in the source — it never reorders or refreshes entries.) -/
theorem cache_fifo_bounded (cfg : CacheConfig) (hmax : 1 ≤ cfg.maxSize) :
    (∀ (items : List (List ℕ × List ℚ)),
      (putMany cfg [] items).length ≤ cfg.maxSize) ∧
    (∀ (c : EmbeddingCache) (now : ℕ) (text : List ℕ) (emb : List ℚ),
      c.length = cfg.maxSize → cacheKeyOf text ∉ c.map Prod.fst →
      setCachedEmbedding cfg c now text emb =
        c.tail ++ [(cacheKeyOf text, ⟨emb, now⟩)]) ∧
    (∀ (items : List (List ℕ × List ℚ)),
      items.length = cfg.maxSize + 1 →
      (items.map (fun it => cacheKeyOf it.1)).Nodup →
      putMany cfg [] items =
        items.tail.map (fun it => (cacheKeyOf it.1, (⟨it.2, 0⟩ : CacheEntry))) ∧
      (putMany cfg [] items).length = cfg.maxSize) := by
  refine ⟨?_, ?_, ?_⟩
  · intro items
    exact putMany_length_le cfg hmax items [] (by simp)
  · intro c now text emb hful hfresh
    exact setCachedEmbedding_at_capacity cfg c now text emb hful hmax hfresh
  · intro items hlen hnodup
    -- split off the last insert: it is the one that evicts
    have hne : items ≠ [] := by
      intro h
      rw [h] at hlen
      simp at hlen
    have hsplit : items = items.dropLast ++ [items.getLast hne] :=
      (List.dropLast_append_getLast hne).symm
    have hfrontlen : items.dropLast.length = cfg.maxSize := by
      rw [List.length_dropLast, hlen]
      omega
    have hfrontnodup : (items.dropLast.map (fun it => cacheKeyOf it.1)).Nodup := by
      refine List.Nodup.sublist ?_ hnodup
      exact (List.dropLast_sublist items).map _
    have hfront := putMany_fresh_eq cfg items.dropLast []
      (by rw [List.length_nil, Nat.zero_add, hfrontlen])
      (by intro it _ h; simp at h) hfrontnodup
    rw [List.nil_append] at hfront
    have hlastfresh : cacheKeyOf (items.getLast hne).1 ∉
        (items.dropLast.map (fun it =>
          (cacheKeyOf it.1, (⟨it.2, 0⟩ : CacheEntry)))).map Prod.fst := by
      intro hmem
      simp only [List.map_map, List.mem_map, Function.comp] at hmem
      obtain ⟨jt, hjt, hkey⟩ := hmem
      have hpair : ((items.dropLast.map (fun it => cacheKeyOf it.1)) ++
          [cacheKeyOf (items.getLast hne).1]).Nodup := by
        have := hnodup
        rw [hsplit, List.map_append] at this
        simpa using this
      rw [List.nodup_append] at hpair
      exact hpair.2.2 (List.mem_map_of_mem _ hjt) (by simp [hkey])
    have hstep := setCachedEmbedding_at_capacity cfg
      (items.dropLast.map (fun it => (cacheKeyOf it.1, (⟨it.2, 0⟩ : CacheEntry))))
      0 (items.getLast hne).1 (items.getLast hne).2
      (by rw [List.length_map, hfrontlen]) hmax hlastfresh
    have hfront' : List.foldl (fun c it => setCachedEmbedding cfg c 0 it.1 it.2)
        [] items.dropLast =
        items.dropLast.map (fun it =>
          (cacheKeyOf it.1, (⟨it.2, 0⟩ : CacheEntry))) := hfront
    have hput : putMany cfg [] items =
        setCachedEmbedding cfg
          (items.dropLast.map (fun it =>
            (cacheKeyOf it.1, (⟨it.2, 0⟩ : CacheEntry))))
          0 (items.getLast hne).1 (items.getLast hne).2 := by
      conv_lhs => rw [hsplit]
      unfold putMany
      rw [List.foldl_append, hfront']
      rfl
    have htail : items.tail.map (fun it =>
        (cacheKeyOf it.1, (⟨it.2, 0⟩ : CacheEntry))) =
        (items.dropLast.map (fun it =>
          (cacheKeyOf it.1, (⟨it.2, 0⟩ : CacheEntry)))).tail ++
          [(cacheKeyOf (items.getLast hne).1,
            (⟨(items.getLast hne).2, 0⟩ : CacheEntry))] := by
      conv_lhs => rw [hsplit]
      have hfer : items.dropLast ≠ [] := by
        intro h
        rw [h] at hfrontlen
        simp at hfrontlen
        omega
      rw [List.tail_append_of_ne_nil hfer]
      rw [List.map_append, List.map_tail]
      simp
    constructor
    · rw [hput, hstep, htail]
    · rw [hput, hstep]
      simp only [List.length_append, List.length_tail, List.length_map,
        hfrontlen, List.length_singleton]
      omega

/-- Witness for C7 with `maxSize = 2` and the three texts `"a"`, `"b"`,
`"c"` (pairwise-distinct cache keys): the final cache holds exactly the
last two entries. -/
theorem cache_fifo_bounded_witness :
    putMany ⟨some "true", 2, 3600⟩ [] [([97], [1]), ([98], [2]), ([99], [3])] =
      [(cacheKeyOf [98], ⟨[2], 0⟩), (cacheKeyOf [99], ⟨[3], 0⟩)] := by
  have h := (cache_fifo_bounded ⟨some "true", 2, 3600⟩ (by decide)).2.2
    [([97], [1]), ([98], [2]), ([99], [3])] (by decide) (by decide)
  rw [h.1]
  decide

/-- C10: cache keys are the first 50 characters of the base64 encoding of
the text, so two distinct texts agreeing on their first 38 bytes share a
key: storing an embedding for the first text and looking up the second
returns the first text's embedding. -/
theorem cache_key_collision_returns_wrong_embedding :
    (List.replicate 38 65 ++ [66]) ≠ (List.replicate 38 65 ++ [67]) ∧
    cacheKeyOf (List.replicate 38 65 ++ [66]) =
      cacheKeyOf (List.replicate 38 65 ++ [67]) ∧
    getCachedEmbedding ⟨some "true", 1000, 3600⟩
        (setCachedEmbedding ⟨some "true", 1000, 3600⟩ [] 0
          (List.replicate 38 65 ++ [66]) [7])
        0 (List.replicate 38 65 ++ [67]) = some [7] :=
  ⟨by decide, by decide, by decide⟩

/-! ## Cosine similarity (`EmbeddingProvider.cosineSimilarity`)

```js
cosineSimilarity(vecA, vecB) {
  if (vecA.length !== vecB.length) {
    throw new Error('Los vectores deben tener la misma dimensión');
  }
  let dotProduct = 0, normA = 0, normB = 0;
  for (let i = 0; i < vecA.length; i++) {
    dotProduct += vecA[i] * vecB[i];
    normA += vecA[i] * vecA[i];
    normB += vecB[i] * vecB[i];
  }
  if (normA === 0 || normB === 0) return 0;
  return dotProduct / (Math.sqrt(normA) * Math.sqrt(normB));
}
```
-/

inductive EmbError where
  | dimensionMismatch
  | emptyInput
  | generationFailed
  | storageFailure
  deriving DecidableEq, Repr

/-- The loop's `dotProduct` accumulator (only reached on equal lengths). -/
def dotProduct (a b : List ℚ) : ℚ := (List.zipWith (· * ·) a b).sum

/-- The loop's `normA`/`normB` accumulator: sum of squares. -/
def sumSquares (a : List ℚ) : ℚ := (a.map (fun x => x * x)).sum

noncomputable def cosineSimilarity (a b : List ℚ) : Except EmbError ℝ :=
  if a.length ≠ b.length then .error .dimensionMismatch
  else if sumSquares a = 0 ∨ sumSquares b = 0 then .ok 0
  else .ok ((dotProduct a b : ℝ) /
    (Real.sqrt ((sumSquares a : ℚ) : ℝ) * Real.sqrt ((sumSquares b : ℚ) : ℝ)))

/-- Claim-side Euclidean norm `‖a‖ = sqrt (Σ aᵢ²)` over the reals. -/
noncomputable def euclidNorm (a : List ℚ) : ℝ :=
  Real.sqrt ((List.map (fun x : ℚ => ((x : ℝ)) ^ 2) a).sum)

/-- Claim-side dot product over the reals. -/
def dotR (a b : List ℚ) : ℝ :=
  (List.zipWith (fun (x y : ℚ) => ((x : ℝ)) * ((y : ℝ))) a b).sum

theorem sumSquares_cast (a : List ℚ) :
    ((sumSquares a : ℚ) : ℝ) = (List.map (fun x : ℚ => ((x : ℝ)) ^ 2) a).sum := by
  unfold sumSquares
  induction a with
  | nil => simp
  | cons x xs ih =>
    simp only [List.map_cons, List.sum_cons]
    rw [Rat.cast_add, Rat.cast_mul, ih]
    ring

theorem dotProduct_cast (a b : List ℚ) :
    ((dotProduct a b : ℚ) : ℝ) = dotR a b := by
  unfold dotProduct dotR
  induction a generalizing b with
  | nil => simp
  | cons x xs ih =>
    cases b with
    | nil => simp
    | cons y ys =>
      simp only [List.zipWith_cons_cons, List.sum_cons]
      rw [Rat.cast_add, Rat.cast_mul, ih]

theorem sumSquares_nonneg (a : List ℚ) : 0 ≤ sumSquares a := by
  unfold sumSquares
  induction a with
  | nil => simp
  | cons x xs ih =>
    simp only [List.map_cons, List.sum_cons]
    nlinarith [mul_self_nonneg x]

theorem euclidNorm_eq_zero_iff (a : List ℚ) :
    euclidNorm a = 0 ↔ sumSquares a = 0 := by
  unfold euclidNorm
  rw [← sumSquares_cast]
  rw [Real.sqrt_eq_zero (by exact_mod_cast sumSquares_nonneg a)]
  exact_mod_cast Iff.rfl

/-- C8: `cosineSimilarity` fails with a dimension-mismatch error exactly when
the two vectors have different lengths; on equal lengths it returns
`dot(a,b) / (‖a‖ · ‖b‖)`, and returns `0` whenever either norm is zero. -/
theorem cosineSimilarity_spec (a b : List ℚ) :
    (cosineSimilarity a b = .error .dimensionMismatch ↔ a.length ≠ b.length) ∧
    (a.length = b.length → euclidNorm a ≠ 0 → euclidNorm b ≠ 0 →
      cosineSimilarity a b = .ok (dotR a b / (euclidNorm a * euclidNorm b))) ∧
    (a.length = b.length → (euclidNorm a = 0 ∨ euclidNorm b = 0) →
      cosineSimilarity a b = .ok 0) := by
  refine ⟨⟨fun h => ?_, fun h => ?_⟩, fun hlen ha hb => ?_, fun hlen h0 => ?_⟩
  · by_contra hlen
    unfold cosineSimilarity at h
    rw [if_neg (by omega)] at h
    split at h <;> simp at h
  · unfold cosineSimilarity
    rw [if_pos h]
  · have h0 : ¬ (sumSquares a = 0 ∨ sumSquares b = 0) := by
      rw [← euclidNorm_eq_zero_iff, ← euclidNorm_eq_zero_iff]
      tauto
    unfold cosineSimilarity
    rw [if_neg (by omega), if_neg h0]
    unfold euclidNorm
    rw [← sumSquares_cast, ← sumSquares_cast, dotProduct_cast]
  · unfold cosineSimilarity
    rw [if_neg (by omega)]
    rw [if_pos (by rw [← euclidNorm_eq_zero_iff, ← euclidNorm_eq_zero_iff]; exact h0)]

/-- Witness for C8: a zero vector against `[1]` yields similarity `0`, and
mismatched lengths yield the dimension-mismatch error. -/
theorem cosineSimilarity_spec_witness :
    cosineSimilarity [0] [1] = .ok 0 ∧
      cosineSimilarity [1] [1, 2] = .error .dimensionMismatch :=
  ⟨(cosineSimilarity_spec [0] [1]).2.2 rfl
      (Or.inl (by unfold euclidNorm; simp)),
    (cosineSimilarity_spec [1] [1, 2]).1.mpr (by simp)⟩

/-! ## Batch embeddings (`EmbeddingProvider.generateBatchEmbeddings`)

```js
async generateBatchEmbeddings(texts) {
  if (!this.openai) throw new Error('OpenAI client no inicializado');
  if (!Array.isArray(texts) || texts.length === 0) {
    throw new Error('Array de textos vacío');
  }
  const batchSize = Math.min(texts.length, 100);
  const batches = [];
  for (let i = 0; i < texts.length; i += batchSize) {
    batches.push(texts.slice(i, i + batchSize));
  }
  const allEmbeddings = [];
  for (const batch of batches) {
    const response = await this.openai.embeddings.create({
      model: this.embeddingModel, input: batch.map(text => text.trim()) });
    allEmbeddings.push(...response.data.map(item => item.embedding));
  }
  return allEmbeddings;
}
```

The external OpenAI call is the oracle `api : List String → Option (List Vec)`
(`none` = the request throws); a thrown error propagates out of the whole
call, so no partial `allEmbeddings` is ever returned. -/

def jsTrimStr (s : String) : String := ⟨jsTrim s.data⟩

/-- The batching loop `for (i = 0; i < len; i += batchSize)` with
`slice(i, i + batchSize)`.  (`n = 0` is unreachable: `generateBatchEmbeddings`
rejects empty input and otherwise `batchSize = min(len, 100) ≥ 1`.) -/
def batchesOf (n : ℕ) (l : List String) : List (List String) :=
  if h : n = 0 ∨ l = [] then []
  else l.take n :: batchesOf n (l.drop n)
termination_by l.length
decreasing_by
  push_neg at h
  have : 0 < l.length := List.length_pos.mpr h.2
  simp only [List.length_drop]
  omega

/-- The `for (const batch of batches)` accumulation; the first failing
request aborts the whole call. -/
def embedBatchesLoop (api : List String → Option (List (List ℚ))) :
    List (List String) → List (List ℚ) → Except EmbError (List (List ℚ))
  | [], acc => .ok acc
  | b :: rest, acc =>
    match api (b.map jsTrimStr) with
    | none => .error .generationFailed
    | some embs => embedBatchesLoop api rest (acc ++ embs)

def generateBatchEmbeddings (api : List String → Option (List (List ℚ)))
    (texts : List String) : Except EmbError (List (List ℚ)) :=
  if texts = [] then .error .emptyInput
  else embedBatchesLoop api (batchesOf (min texts.length 100) texts) []

theorem batchesOf_join (n : ℕ) (hn : 0 < n) :
    ∀ l : List String, (batchesOf n l).flatten = l := by
  intro l
  generalize hlen : l.length = len
  induction len using Nat.strong_induction_on generalizing l with
  | _ len ih =>
    rw [batchesOf]
    by_cases h : n = 0 ∨ l = []
    · rcases h with h | h
      · omega
      · simp [h]
    · rw [dif_neg h]
      push_neg at h
      have hpos : 0 < l.length := List.length_pos.mpr h.2
      rw [List.flatten_cons]
      rw [ih (l.drop n).length (by simp; omega) (l.drop n) rfl]
      exact List.take_append_drop n l

theorem batchesOf_sizes (n : ℕ) (hn : 0 < n) :
    ∀ l : List String, ∀ b ∈ batchesOf n l, b ≠ [] ∧ b.length ≤ n := by
  intro l
  generalize hlen : l.length = len
  induction len using Nat.strong_induction_on generalizing l with
  | _ len ih =>
    intro b hb
    rw [batchesOf] at hb
    by_cases h : n = 0 ∨ l = []
    · rw [dif_pos h] at hb
      simp at hb
    · rw [dif_neg h] at hb
      push_neg at h
      have hpos : 0 < l.length := List.length_pos.mpr h.2
      rcases List.mem_cons.mp hb with hb | hb
      · subst hb
        constructor
        · intro hempty
          have hlen0 := congrArg List.length hempty
          rw [List.length_take] at hlen0
          simp only [List.length_nil] at hlen0
          omega
        · simp
      · exact ih (l.drop n).length (by simp only [List.length_drop]; omega) (l.drop n) rfl b hb

theorem embedBatchesLoop_map (api : List String → Option (List (List ℚ)))
    (f : String → List ℚ) (hapi : ∀ b, api b = some (b.map f)) :
    ∀ (batches : List (List String)) (acc : List (List ℚ)),
      embedBatchesLoop api batches acc =
        .ok (acc ++ (batches.map (fun b => b.map (fun t => f (jsTrimStr t)))).flatten) := by
  intro batches
  induction batches with
  | nil => intro acc; simp [embedBatchesLoop]
  | cons b rest ih =>
    intro acc
    rw [embedBatchesLoop, hapi]
    simp only []
    rw [ih]
    simp [List.map_map, Function.comp]

theorem embedBatchesLoop_length (api : List String → Option (List (List ℚ)))
    (hapi : ∀ b r, api b = some r → r.length = b.length) :
    ∀ (batches : List (List String)) (acc : List (List ℚ))
      (res : List (List ℚ)),
      embedBatchesLoop api batches acc = .ok res →
      res.length = acc.length + (batches.map List.length).sum := by
  intro batches
  induction batches with
  | nil =>
    intro acc res h
    rw [embedBatchesLoop] at h
    cases h
    simp
  | cons b rest ih =>
    intro acc res h
    rw [embedBatchesLoop] at h
    cases hb : api (b.map jsTrimStr) with
    | none => rw [hb] at h; cases h
    | some embs =>
      rw [hb] at h
      have := ih (acc ++ embs) res h
      have hlen := hapi _ _ hb
      simp only [List.length_map] at hlen
      simp only [List.length_append, hlen] at this
      simp only [List.map_cons, List.sum_cons]
      omega

theorem embedBatchesLoop_fails (api : List String → Option (List (List ℚ))) :
    ∀ (batches : List (List String)) (acc : List (List ℚ)),
      (∃ b ∈ batches, api (b.map jsTrimStr) = none) →
      embedBatchesLoop api batches acc = .error .generationFailed := by
  intro batches
  induction batches with
  | nil =>
    intro acc h
    simp at h
  | cons b rest ih =>
    intro acc h
    rw [embedBatchesLoop]
    cases hb : api (b.map jsTrimStr) with
    | none => rfl
    | some embs =>
      rcases h with ⟨c, hc, hcnone⟩
      rcases List.mem_cons.mp hc with hc | hc
      · subst hc
        rw [hb] at hcnone
        cases hcnone
      · exact ih _ ⟨c, hc, hcnone⟩

/-- C3: batch embedding is all-or-nothing.  The input is partitioned into
sub-batches of fixed size `min(len, 100)` whose concatenation is the input;
on success the results are the per-text embeddings concatenated in input
order with one result per input text; if the request for any sub-batch
fails, the whole call fails with an error and no partial result list is
returned. -/
theorem generateBatchEmbeddings_all_or_nothing :
    (∀ (n : ℕ) (l : List String), 0 < n →
      (batchesOf n l).flatten = l ∧ ∀ b ∈ batchesOf n l, b ≠ [] ∧ b.length ≤ n) ∧
    (∀ (api : List String → Option (List (List ℚ))) (texts : List String)
        (f : String → List ℚ),
      (∀ b, api b = some (b.map f)) → texts ≠ [] →
      generateBatchEmbeddings api texts =
        .ok (texts.map (fun t => f (jsTrimStr t)))) ∧
    (∀ (api : List String → Option (List (List ℚ))) (texts : List String)
        (res : List (List ℚ)),
      (∀ b r, api b = some r → r.length = b.length) →
      generateBatchEmbeddings api texts = .ok res →
      res.length = texts.length) ∧
    (∀ (api : List String → Option (List (List ℚ))) (texts : List String),
      (∃ b ∈ batchesOf (min texts.length 100) texts,
        api (b.map jsTrimStr) = none) →
      generateBatchEmbeddings api texts = .error .generationFailed) := by
  refine ⟨fun n l hn => ⟨batchesOf_join n hn l, batchesOf_sizes n hn l⟩,
    fun api texts f hapi hne => ?_, fun api texts res hapi h => ?_,
    fun api texts hfail => ?_⟩
  · unfold generateBatchEmbeddings
    rw [if_neg hne]
    have hpos : 0 < min texts.length 100 := by
      have : 0 < texts.length := List.length_pos.mpr hne
      omega
    rw [embedBatchesLoop_map api f hapi]
    rw [List.nil_append]
    congr 1
    have hj := batchesOf_join (min texts.length 100) hpos texts
    calc (List.map (fun b => b.map (fun t => f (jsTrimStr t)))
            (batchesOf (min texts.length 100) texts)).flatten
        = ((batchesOf (min texts.length 100) texts).flatten).map
            (fun t => f (jsTrimStr t)) := by
          rw [List.map_flatten]
      _ = texts.map (fun t => f (jsTrimStr t)) := by rw [hj]
  · unfold generateBatchEmbeddings at h
    by_cases hne : texts = []
    · rw [if_pos hne] at h
      cases h
    · rw [if_neg hne] at h
      have hpos : 0 < min texts.length 100 := by
        have : 0 < texts.length := List.length_pos.mpr hne
        omega
      have := embedBatchesLoop_length api hapi _ _ _ h
      rw [List.length_nil] at this
      rw [this, Nat.zero_add]
      have hj := congrArg List.length (batchesOf_join (min texts.length 100) hpos texts)
      rw [List.length_flatten] at hj
      exact hj
  · unfold generateBatchEmbeddings
    have hne : texts ≠ [] := by
      intro h
      subst h
      rcases hfail with ⟨b, hb, _⟩
      rw [batchesOf] at hb
      simp at hb
    rw [if_neg hne]
    exact embedBatchesLoop_fails api _ _ hfail

/-- Witness for C3: two texts, an order-dependent embedding oracle, and a
failing oracle. -/
theorem generateBatchEmbeddings_all_or_nothing_witness :
    generateBatchEmbeddings (fun b => some (b.map (fun t => [(t.length : ℚ)])))
        ["ab", " cde "] = .ok [[2], [3]] ∧
      generateBatchEmbeddings (fun _ => none) ["ab"] =
        .error .generationFailed := by
  constructor
  · have h := generateBatchEmbeddings_all_or_nothing.2.1
      (fun b => some (b.map (fun t => [(t.length : ℚ)])))
      ["ab", " cde "] (fun t => [(t.length : ℚ)]) (fun b => rfl) (by simp)
    rw [h]
    exact congrArg Except.ok (by decide)
  · refine generateBatchEmbeddings_all_or_nothing.2.2.2 (fun _ => none)
      ["ab"] ⟨["ab"], ?_, rfl⟩
    rw [batchesOf]
    rw [dif_neg (by simp)]
    exact List.mem_cons_self _ _

/-! ## Document store (`storeDocument` / `getDocument`)

Schema (`createTables`): `documents(id TEXT PRIMARY KEY, …)` and
`document_chunks(document_id, chunk_index, text, embedding, start_index,
end_index, …, FOREIGN KEY (document_id) REFERENCES documents(id) ON DELETE
CASCADE)`.

`storeDocument` runs one `better-sqlite3` transaction:
`INSERT OR REPLACE INTO documents …` followed by one
`INSERT INTO document_chunks …` per chunk.  Two library facts the model
relies on: better-sqlite3 enables foreign-key enforcement by default, so
SQLite's `REPLACE` (delete-then-insert on a conflicting `id`) cascades the
delete to `document_chunks` via `ON DELETE CASCADE`; and
`db.transaction(fn)` rolls everything back if `fn` throws.  Statement
failures (e.g. storage errors) are an oracle `fails : ℕ → Bool` indexed by
statement position (0 = the document insert, `k+1` = the `k`-th chunk
insert). -/

structure DocRow where
  id : String
  title : String
  subject : Option String
  author : Option String
  tags : String
  difficulty : Option String
  dtype : Option String
  userId : Option String
  createdAt : String
  deriving DecidableEq, Repr

structure ChunkRow where
  documentId : String
  chunkIndex : ℤ
  text : String
  embedding : List ℚ
  startIndex : ℤ
  endIndex : ℤ
  deriving DecidableEq, Repr

structure Db where
  documents : List DocRow
  chunks : List ChunkRow
  deriving DecidableEq, Repr

structure DocumentChunk where
  chunkIndex : ℤ
  text : String
  embedding : List ℚ
  startIndex : ℤ
  endIndex : ℤ
  deriving DecidableEq, Repr

structure DocumentData where
  id : String
  title : String
  subject : Option String
  author : Option String
  tags : String
  difficulty : Option String
  dtype : Option String
  userId : Option String
  createdAt : String
  chunks : List DocumentChunk
  deriving DecidableEq, Repr

def docRowOf (d : DocumentData) : DocRow :=
  ⟨d.id, d.title, d.subject, d.author, d.tags, d.difficulty, d.dtype,
    d.userId, d.createdAt⟩

def chunkRowOf (docId : String) (c : DocumentChunk) : ChunkRow :=
  ⟨docId, c.chunkIndex, c.text, c.embedding, c.startIndex, c.endIndex⟩

/-- `INSERT OR REPLACE INTO documents`: on an `id` conflict SQLite deletes
the old row (which cascades to its chunks, foreign keys being on) and
inserts the new one; otherwise it is a plain insert. -/
def replaceDocument (db : Db) (d : DocumentData) : Db :=
  if db.documents.any (fun r => r.id = d.id) then
    { documents := db.documents.filter (fun r => r.id ≠ d.id) ++ [docRowOf d],
      chunks := db.chunks.filter (fun c => c.documentId ≠ d.id) }
  else { db with documents := db.documents ++ [docRowOf d] }

/-- The `for (const chunk of doc.chunks) insertChunk.run(…)` loop; the `k`-th
statement may throw (`fails k`), in which case the partial state is reported
together with the failure flag. -/
def runChunkInserts (fails : ℕ → Bool) (docId : String) :
    Db → List DocumentChunk → ℕ → Db × Bool
  | db, [], _ => (db, false)
  | db, c :: rest, k =>
    if fails k then (db, true)
    else runChunkInserts fails docId
      { db with chunks := db.chunks ++ [chunkRowOf docId c] } rest (k + 1)

/-- `storeDocument(documentData)`: the transaction commits the document row
and all chunk rows, or rolls back to the caller-visible prior state. -/
def storeDocument (fails : ℕ → Bool) (db : Db) (d : DocumentData) :
    Db × Option EmbError :=
  if fails 0 then (db, some .storageFailure)
  else
    let res := runChunkInserts fails d.id (replaceDocument db d) d.chunks 1
    if res.2 then (db, some .storageFailure) else (res.1, none)

structure GotChunk where
  chunkIndex : ℤ
  text : String
  startIndex : ℤ
  endIndex : ℤ
  deriving DecidableEq, Repr

structure GotDocument where
  doc : DocRow
  chunks : Option (List GotChunk)
  deriving DecidableEq, Repr

/-- `getDocument(id, { includeChunks })`: look up the document row; when
chunks are requested, return them `ORDER BY chunk_index` without their
embeddings (`SELECT chunk_index, text, start_index, end_index`). -/
def getDocument (db : Db) (id : String) (includeChunks : Bool) :
    Option GotDocument :=
  (db.documents.find? (fun r => r.id = id)).map (fun d =>
    { doc := d,
      chunks :=
        if includeChunks then
          some (((db.chunks.filter (fun c => c.documentId = id)).mergeSort
              (fun a b => a.chunkIndex ≤ b.chunkIndex)).map
            (fun c => ⟨c.chunkIndex, c.text, c.startIndex, c.endIndex⟩))
        else none })

theorem runChunkInserts_ok (fails : ℕ → Bool) (docId : String) :
    ∀ (cs : List DocumentChunk) (db : Db) (k : ℕ),
      (runChunkInserts fails docId db cs k).2 = false →
      (runChunkInserts fails docId db cs k).1 =
        { db with chunks := db.chunks ++ cs.map (chunkRowOf docId) } := by
  intro cs
  induction cs with
  | nil =>
    intro db k _
    simp [runChunkInserts]
  | cons c rest ih =>
    intro db k h
    rw [runChunkInserts] at h ⊢
    by_cases hf : fails k
    · rw [if_pos hf] at h
      simp at h
    · rw [if_neg hf] at h ⊢
      rw [ih _ _ h]
      simp

theorem find?_append_of_none {α : Type} (p : α → Bool) (l₁ l₂ : List α)
    (h : l₁.find? p = none) : (l₁ ++ l₂).find? p = l₂.find? p := by
  induction l₁ with
  | nil => simp
  | cons a l ih =>
    by_cases hp : p a
    · rw [List.find?_cons_of_pos _ hp] at h
      cases h
    · rw [List.find?_cons_of_neg _ hp] at h
      rw [List.cons_append, List.find?_cons_of_neg _ hp]
      exact ih h

theorem filter_ne_filter_eq_nil (chunks : List ChunkRow) (id : String) :
    ((chunks.filter (fun c => c.documentId ≠ id)).filter
      (fun c => c.documentId = id)) = [] := by
  rw [List.filter_eq_nil_iff]
  intro c hc
  rw [List.mem_filter] at hc
  simp only [decide_eq_true_eq] at hc ⊢
  exact hc.2

theorem filter_eq_map_chunkRow (cs : List DocumentChunk) (id : String) :
    ((cs.map (chunkRowOf id)).filter (fun c => c.documentId = id)) =
      cs.map (chunkRowOf id) := by
  rw [List.filter_eq_self]
  intro c hc
  rw [List.mem_map] at hc
  obtain ⟨x, _, hx⟩ := hc
  subst hx
  simp [chunkRowOf]

/-- C2: re-creating a document with an existing id replaces the prior
document row and all of its prior chunks (the `REPLACE` delete cascades via
`ON DELETE CASCADE`), so afterwards the only chunks for that id are the new
ones; and the whole write is atomic: on any statement failure the
transaction rolls back and the caller-visible state is unchanged, otherwise
the document row and every chunk row are written. -/
theorem storeDocument_upsert_atomic (fails : ℕ → Bool) (db : Db)
    (d : DocumentData)
    (hex : db.documents.any (fun r => r.id = d.id) = true) :
    ((storeDocument fails db d).2.isSome = true →
      (storeDocument fails db d).1 = db) ∧
    ((storeDocument fails db d).2 = none →
      (storeDocument fails db d).1.documents =
        db.documents.filter (fun r => r.id ≠ d.id) ++ [docRowOf d] ∧
      (storeDocument fails db d).1.chunks =
        db.chunks.filter (fun c => c.documentId ≠ d.id) ++
          d.chunks.map (chunkRowOf d.id) ∧
      (storeDocument fails db d).1.chunks.filter
          (fun c => c.documentId = d.id) =
        d.chunks.map (chunkRowOf d.id)) := by
  unfold storeDocument
  by_cases h0 : fails 0
  · rw [if_pos h0]
    exact ⟨fun _ => rfl, fun h => by cases h⟩
  · rw [if_neg h0]
    by_cases hfail : (runChunkInserts fails d.id (replaceDocument db d)
        d.chunks 1).2
    · rw [if_pos hfail]
      exact ⟨fun _ => rfl, fun h => by cases h⟩
    · rw [if_neg hfail]
      simp only [Option.isSome_none, Bool.false_eq_true, false_implies,
        true_and]
      intro _
      have hrun := runChunkInserts_ok fails d.id d.chunks
        (replaceDocument db d) 1 (by simpa using hfail)
      rw [hrun]
      unfold replaceDocument
      rw [if_pos hex]
      refine ⟨rfl, rfl, ?_⟩
      rw [List.filter_append, filter_ne_filter_eq_nil,
        filter_eq_map_chunkRow, List.nil_append]

/-- Witness for C2: a one-document store re-created under the same id with
one new chunk; the old chunk disappears and the new state is fully written. -/
theorem storeDocument_upsert_atomic_witness :
    (storeDocument (fun _ => false)
        ⟨[⟨"doc1", "t", none, none, "[]", none, none, none, "c"⟩],
          [⟨"doc1", 0, "old", [1], 0, 3⟩]⟩
        ⟨"doc1", "t2", none, none, "[]", none, none, none, "c2",
          [⟨0, "new", [2], 0, 3⟩]⟩).2 = none ∧
    ((storeDocument (fun _ => false)
        ⟨[⟨"doc1", "t", none, none, "[]", none, none, none, "c"⟩],
          [⟨"doc1", 0, "old", [1], 0, 3⟩]⟩
        ⟨"doc1", "t2", none, none, "[]", none, none, none, "c2",
          [⟨0, "new", [2], 0, 3⟩]⟩).1.chunks.filter
        (fun c => c.documentId = "doc1")) =
      [⟨"doc1", 0, "new", [2], 0, 3⟩] := by
  constructor
  · decide
  · have h := ((storeDocument_upsert_atomic (fun _ => false)
      ⟨[⟨"doc1", "t", none, none, "[]", none, none, none, "c"⟩],
        [⟨"doc1", 0, "old", [1], 0, 3⟩]⟩
      ⟨"doc1", "t2", none, none, "[]", none, none, none, "c2",
        [⟨0, "new", [2], 0, 3⟩]⟩ (by decide)).2 (by decide)).2.2
    rw [h]
    decide

/-- C9: storing a document with chunks (chunk indices in order, as the
ingestion pipeline produces them) and immediately retrieving it with
`includeChunks = true` returns chunks identical in count, order and text to
what was stored, ordered by `chunkIndex`; the prior state only needs the
store's foreign-key invariant (no orphan chunks under a non-existent id). -/
theorem getDocument_mk_eq (docs : List DocRow) (chunks : List ChunkRow)
    (id : String) (r : DocRow)
    (hfound : docs.find? (fun x => x.id = id) = some r) :
    getDocument ⟨docs, chunks⟩ id true =
      some ⟨r, some (((chunks.filter (fun c => c.documentId = id)).mergeSort
          (fun a b => a.chunkIndex ≤ b.chunkIndex)).map
        (fun c => ⟨c.chunkIndex, c.text, c.startIndex, c.endIndex⟩))⟩ := by
  unfold getDocument
  rw [hfound]
  rfl

theorem storeDocument_getDocument_roundtrip (fails : ℕ → Bool) (db : Db)
    (d : DocumentData)
    (hsorted : d.chunks.Pairwise (fun a b => a.chunkIndex ≤ b.chunkIndex))
    (hfk : db.documents.any (fun r => r.id = d.id) = false →
      db.chunks.filter (fun c => c.documentId = d.id) = [])
    (hok : (storeDocument fails db d).2 = none) :
    getDocument (storeDocument fails db d).1 d.id true =
      some ⟨docRowOf d,
        some (d.chunks.map (fun c =>
          ⟨c.chunkIndex, c.text, c.startIndex, c.endIndex⟩))⟩ := by
  -- unpack the successful store
  unfold storeDocument at hok ⊢
  by_cases h0 : fails 0
  · rw [if_pos h0] at hok
    cases hok
  · rw [if_neg h0] at hok ⊢
    by_cases hfail : (runChunkInserts fails d.id (replaceDocument db d)
        d.chunks 1).2
    · rw [if_pos hfail] at hok
      cases hok
    · rw [if_neg hfail] at hok ⊢
      have hrun := runChunkInserts_ok fails d.id d.chunks
        (replaceDocument db d) 1 (by simpa using hfail)
      rw [hrun]
      have hself : (fun r : DocRow => decide (r.id = d.id)) (docRowOf d) = true := by
        simp [docRowOf]
      have hpair : ((d.chunks.map (chunkRowOf d.id)).Pairwise
          (fun a b => (fun a b : ChunkRow =>
            decide (a.chunkIndex ≤ b.chunkIndex)) a b = true)) := by
        rw [List.pairwise_map]
        refine hsorted.imp ?_
        intro a b hab
        simpa [chunkRowOf] using hab
      by_cases hex : db.documents.any (fun r => r.id = d.id)
      · have hdocs : (replaceDocument db d).documents =
            db.documents.filter (fun r => r.id ≠ d.id) ++ [docRowOf d] := by
          unfold replaceDocument
          rw [if_pos hex]
        have hchunks : (replaceDocument db d).chunks =
            db.chunks.filter (fun c => c.documentId ≠ d.id) := by
          unfold replaceDocument
          rw [if_pos hex]
        have hfound : (replaceDocument db d).documents.find?
            (fun x => x.id = d.id) = some (docRowOf d) := by
          rw [hdocs]
          rw [find?_append_of_none _ _ _ (by
            rw [List.find?_eq_none]
            intro r hr
            rw [List.mem_filter] at hr
            simpa using hr.2)]
          exact List.find?_cons_of_pos _ hself
        rw [getDocument_mk_eq _ _ _ _ hfound]
        have hflt : ((replaceDocument db d).chunks ++
            d.chunks.map (chunkRowOf d.id)).filter
            (fun c => c.documentId = d.id) = d.chunks.map (chunkRowOf d.id) := by
          rw [hchunks, List.filter_append, filter_ne_filter_eq_nil,
            List.nil_append, filter_eq_map_chunkRow]
        rw [hflt, List.mergeSort_of_sorted hpair, List.map_map]
        rfl
      · have hdocs : (replaceDocument db d).documents =
            db.documents ++ [docRowOf d] := by
          unfold replaceDocument
          rw [if_neg (by simpa using hex)]
        have hchunks : (replaceDocument db d).chunks = db.chunks := by
          unfold replaceDocument
          rw [if_neg (by simpa using hex)]
        have hfound : (replaceDocument db d).documents.find?
            (fun x => x.id = d.id) = some (docRowOf d) := by
          rw [hdocs]
          rw [find?_append_of_none _ _ _ (by
            rw [List.find?_eq_none]
            intro r hr
            have hex2 : (db.documents.any fun x => decide (x.id = d.id)) =
                false := by simpa using hex
            rw [List.any_eq_false] at hex2
            simpa using hex2 r hr)]
          exact List.find?_cons_of_pos _ hself
        rw [getDocument_mk_eq _ _ _ _ hfound]
        have hflt : ((replaceDocument db d).chunks ++
            d.chunks.map (chunkRowOf d.id)).filter
            (fun c => c.documentId = d.id) = d.chunks.map (chunkRowOf d.id) := by
          rw [hchunks, List.filter_append, hfk (by simpa using hex),
            List.nil_append, filter_eq_map_chunkRow]
        rw [hflt, List.mergeSort_of_sorted hpair, List.map_map]
        rfl

/-- Witness for C9: store a fresh two-chunk document into an empty store and
read it back with chunks. -/
theorem storeDocument_getDocument_roundtrip_witness :
    getDocument (storeDocument (fun _ => false) ⟨[], []⟩
        ⟨"docA", "t", none, none, "[]", none, none, none, "c",
          [⟨0, "hello", [1], 0, 5⟩, ⟨1, "world", [2], 4, 9⟩]⟩).1
      "docA" true =
      some ⟨⟨"docA", "t", none, none, "[]", none, none, none, "c"⟩,
        some [⟨0, "hello", 0, 5⟩, ⟨1, "world", 4, 9⟩]⟩ := by
  have h := storeDocument_getDocument_roundtrip (fun _ => false) ⟨[], []⟩
    ⟨"docA", "t", none, none, "[]", none, none, none, "c",
      [⟨0, "hello", [1], 0, 5⟩, ⟨1, "world", [2], 4, 9⟩]⟩
    (by simp) (fun _ => rfl) (by decide)
  rw [h]
  rfl

/-! ## Similarity search (`EmbeddingProvider.searchSimilar`)

```js
async searchSimilar(options) {
  const { embedding, limit = 10, threshold = 0.75, filters = {} } = options;
  …
  // WHERE clause from filters.subject / difficulty / type (single or IN
  // list) / author / userId, each an equality on the joined document row
  const query = `SELECT c.document_id, c.chunk_index, c.text, c.embedding,
      c.start_index, c.end_index, d.title, d.subject, d.author, d.tags,
      d.difficulty, d.type, d.created_at
    FROM document_chunks c JOIN documents d ON c.document_id = d.id
    ${whereClause} ORDER BY c.document_id, c.chunk_index`;
  const rows = this.db.prepare(query).all(...params);
  const results = [];
  for (const row of rows) {
    const similarity = this.cosineSimilarity(embedding, …row.embedding…);
    if (similarity >= threshold) results.push({ …row, similarity });
  }
  results.sort((a, b) => b.similarity - a.similarity);
  return results.slice(0, limit);
}
```

`documents.id` is the primary key, so the join partner of a chunk is the
unique document row with its `document_id`.  `Array.prototype.sort` is
required by ECMAScript to be stable; with the comparator
`(a, b) => b.similarity - a.similarity` the output is therefore the unique
stable descending-by-similarity reordering, modelled by a stable insertion
sort.  A `cosineSimilarity` throw (dimension mismatch) propagates out of
the whole call. -/

/-- `filters.type`: a single string (`d.type = ?`) or an array
(`d.type IN (…)`). -/
inductive TypeFilter where
  | single (t : String)
  | list (ts : List String)

structure SearchFilters where
  subject : Option String
  difficulty : Option String
  dtype : Option TypeFilter
  author : Option String
  userId : Option String

/-- SQL `col = ?` on a nullable column: NULL matches nothing. -/
def optColEq (col : Option String) (v : String) : Bool :=
  match col with
  | some s => s = v
  | none => false

/-- SQL `col IN (…)` on a nullable column. -/
def optColIn (col : Option String) (vs : List String) : Bool :=
  match col with
  | some s => vs.contains s
  | none => false

/-- The generated `WHERE` clause: one equality per supplied filter. -/
def rowPassesFilters (f : SearchFilters) (d : DocRow) : Bool :=
  (match f.subject with | some v => optColEq d.subject v | none => true) &&
  (match f.difficulty with | some v => optColEq d.difficulty v | none => true) &&
  (match f.dtype with
    | some (.single t) => optColEq d.dtype t
    | some (.list ts) => optColIn d.dtype ts
    | none => true) &&
  (match f.author with | some v => optColEq d.author v | none => true) &&
  (match f.userId with | some v => optColEq d.userId v | none => true)

structure ScanRow where
  documentId : String
  chunkIndex : ℤ
  text : String
  embedding : List ℚ
  startIndex : ℤ
  endIndex : ℤ
  title : String
  subject : Option String
  author : Option String
  tags : String
  difficulty : Option String
  dtype : Option String
  createdAt : String

def scanRowOf (c : ChunkRow) (d : DocRow) : ScanRow :=
  ⟨c.documentId, c.chunkIndex, c.text, c.embedding, c.startIndex, c.endIndex,
    d.title, d.subject, d.author, d.tags, d.difficulty, d.dtype, d.createdAt⟩

/-- The filtered join, `ORDER BY c.document_id, c.chunk_index`. -/
def scanRows (db : Db) (f : SearchFilters) : List ScanRow :=
  (db.chunks.filterMap (fun c =>
      (db.documents.find? (fun r => r.id = c.documentId)).bind (fun d =>
        if rowPassesFilters f d then some (scanRowOf c d) else none))).mergeSort
    (fun a b => a.documentId < b.documentId ∨
      (a.documentId = b.documentId ∧ a.chunkIndex ≤ b.chunkIndex))

structure SearchResult where
  documentId : String
  chunkIndex : ℤ
  text : String
  similarity : ℝ
  startIndex : ℤ
  endIndex : ℤ
  title : String
  subject : Option String
  author : Option String
  tags : String
  difficulty : Option String
  dtype : Option String
  createdAt : String

def resultOf (r : ScanRow) (sim : ℝ) : SearchResult :=
  ⟨r.documentId, r.chunkIndex, r.text, sim, r.startIndex, r.endIndex,
    r.title, r.subject, r.author, r.tags, r.difficulty, r.dtype, r.createdAt⟩

/-- The scoring loop: compute each row's cosine similarity in scan order,
keep rows at or above the threshold, propagate any similarity error. -/
noncomputable def scoreRows (query : List ℚ) (threshold : ℚ) :
    List ScanRow → Except EmbError (List SearchResult)
  | [] => .ok []
  | r :: rest =>
    match cosineSimilarity query r.embedding with
    | .error e => .error e
    | .ok s =>
      match scoreRows query threshold rest with
      | .error e => .error e
      | .ok tail => .ok (if ((threshold : ℚ) : ℝ) ≤ s then
          resultOf r s :: tail else tail)

/-- Stable insertion step for the descending-similarity sort: an element
moves past another only when the other's similarity is strictly larger, so
ties keep their input order. -/
noncomputable def insertBySimDesc (x : SearchResult) :
    List SearchResult → List SearchResult
  | [] => [x]
  | y :: ys =>
    if x.similarity < y.similarity then y :: insertBySimDesc x ys
    else x :: y :: ys

/-- `results.sort((a, b) => b.similarity - a.similarity)`: the stable sort
ECMAScript specifies, as a stable insertion sort. -/
noncomputable def sortBySimDesc : List SearchResult → List SearchResult
  | [] => []
  | x :: xs => insertBySimDesc x (sortBySimDesc xs)

structure SearchOptions where
  limit : Option ℕ
  threshold : Option ℚ
  filters : SearchFilters

noncomputable def searchSimilar (db : Db) (embedding : List ℚ)
    (opts : SearchOptions) : Except EmbError (List SearchResult) :=
  match scoreRows embedding (opts.threshold.getD (3/4))
      (scanRows db opts.filters) with
  | .error e => .error e
  | .ok results => .ok ((sortBySimDesc results).take (opts.limit.getD 10))

/-- The claim's tie-break key on scan rows: `(documentId, chunkIndex)`
lexicographic order. -/
def scanKeyLE (a b : ScanRow) : Prop :=
  a.documentId < b.documentId ∨
    (a.documentId = b.documentId ∧ a.chunkIndex ≤ b.chunkIndex)

/-- The claim's tie-break key on search results. -/
def resultKeyLE (a b : SearchResult) : Prop :=
  a.documentId < b.documentId ∨
    (a.documentId = b.documentId ∧ a.chunkIndex ≤ b.chunkIndex)

/-- The claim's ranking order: similarity strictly descending, ties broken
by `(documentId, chunkIndex)` ascending. -/
def rankedBefore (a b : SearchResult) : Prop :=
  b.similarity < a.similarity ∨
    (a.similarity = b.similarity ∧ resultKeyLE a b)

theorem insertBySimDesc_perm (x : SearchResult) (l : List SearchResult) :
    List.Perm (insertBySimDesc x l) (x :: l) := by
  induction l with
  | nil => exact List.Perm.refl _
  | cons y ys ih =>
    rw [insertBySimDesc]
    split
    · exact (ih.cons y).trans (List.Perm.swap x y ys)
    · exact List.Perm.refl _

theorem sortBySimDesc_perm (l : List SearchResult) :
    List.Perm (sortBySimDesc l) l := by
  induction l with
  | nil => exact List.Perm.refl _
  | cons x xs ih =>
    rw [sortBySimDesc]
    exact (insertBySimDesc_perm x (sortBySimDesc xs)).trans (ih.cons x)

theorem pairwise_insertBySimDesc {K : SearchResult → SearchResult → Prop}
    (x : SearchResult) (l : List SearchResult)
    (hl : l.Pairwise (fun a b => b.similarity < a.similarity ∨
      (a.similarity = b.similarity ∧ K a b)))
    (hx : ∀ y ∈ l, K x y) :
    (insertBySimDesc x l).Pairwise (fun a b => b.similarity < a.similarity ∨
      (a.similarity = b.similarity ∧ K a b)) := by
  induction l with
  | nil => simp [insertBySimDesc]
  | cons y ys ih =>
    rw [insertBySimDesc]
    rcases List.pairwise_cons.mp hl with ⟨hy, hys⟩
    split
    · rename_i hlt
      rw [List.pairwise_cons]
      constructor
      · intro z hz
        rcases List.mem_cons.mp
          ((insertBySimDesc_perm x ys).mem_iff.mp hz) with hz | hz
        · subst hz
          exact Or.inl hlt
        · exact hy z hz
      · exact ih hys (fun z hz => hx z (List.mem_cons_of_mem y hz))
    · rename_i hge
      push_neg at hge
      rw [List.pairwise_cons]
      constructor
      · intro z hz
        rcases List.mem_cons.mp hz with hz | hz
        · subst hz
          rcases lt_or_eq_of_le hge with hlt | heq
          · exact Or.inl hlt
          · exact Or.inr ⟨heq.symm, hx z (List.mem_cons_self z ys)⟩
        · have hzy : z.similarity ≤ y.similarity := by
            rcases hy z hz with h | h
            · exact le_of_lt h
            · exact le_of_eq h.1.symm
          rcases lt_or_eq_of_le (le_trans hzy hge) with hlt | heq
          · exact Or.inl hlt
          · exact Or.inr ⟨heq.symm, hx z (List.mem_cons_of_mem y hz)⟩
      · exact hl

theorem pairwise_sortBySimDesc {K : SearchResult → SearchResult → Prop}
    (l : List SearchResult) (hK : l.Pairwise K) :
    (sortBySimDesc l).Pairwise (fun a b => b.similarity < a.similarity ∨
      (a.similarity = b.similarity ∧ K a b)) := by
  induction l with
  | nil => simp [sortBySimDesc]
  | cons x xs ih =>
    rcases List.pairwise_cons.mp hK with ⟨hx, hxs⟩
    rw [sortBySimDesc]
    refine pairwise_insertBySimDesc x _ (ih hxs) ?_
    intro y hy
    exact hx y ((sortBySimDesc_perm xs).mem_iff.mp hy)

theorem scoreRows_mem (query : List ℚ) (threshold : ℚ) :
    ∀ (rows : List ScanRow) (l : List SearchResult),
      scoreRows query threshold rows = .ok l →
      ∀ x, x ∈ l ↔ ∃ r ∈ rows, ∃ s : ℝ,
        cosineSimilarity query r.embedding = .ok s ∧
        ((threshold : ℚ) : ℝ) ≤ s ∧ x = resultOf r s := by
  intro rows
  induction rows with
  | nil =>
    intro l h x
    rw [scoreRows] at h
    cases h
    simp
  | cons r rest ih =>
    intro l h x
    rw [scoreRows] at h
    cases hc : cosineSimilarity query r.embedding with
    | error e => rw [hc] at h; cases h
    | ok s =>
      rw [hc] at h
      cases ht : scoreRows query threshold rest with
      | error e => rw [ht] at h; cases h
      | ok tail =>
        rw [ht] at h
        simp only [] at h
        have htail := ih tail ht
        by_cases hth : ((threshold : ℚ) : ℝ) ≤ s
        · rw [if_pos hth] at h
          cases h
          constructor
          · intro hx
            rcases List.mem_cons.mp hx with hx | hx
            · exact ⟨r, List.mem_cons_self r rest, s, hc, hth, hx⟩
            · rcases (htail x).mp hx with ⟨r', hr', s', h1, h2, h3⟩
              exact ⟨r', List.mem_cons_of_mem r hr', s', h1, h2, h3⟩
          · rintro ⟨r', hr', s', h1, h2, h3⟩
            rcases List.mem_cons.mp hr' with hr' | hr'
            · subst hr'
              rw [hc] at h1
              cases h1
              rw [h3]
              exact List.mem_cons_self _ _
            · exact List.mem_cons_of_mem _
                ((htail x).mpr ⟨r', hr', s', h1, h2, h3⟩)
        · rw [if_neg hth] at h
          cases h
          constructor
          · intro hx
            rcases (htail x).mp hx with ⟨r', hr', s', h1, h2, h3⟩
            exact ⟨r', List.mem_cons_of_mem r hr', s', h1, h2, h3⟩
          · rintro ⟨r', hr', s', h1, h2, h3⟩
            rcases List.mem_cons.mp hr' with hr' | hr'
            · subst hr'
              rw [hc] at h1
              cases h1
              exact absurd h2 hth
            · exact (htail x).mpr ⟨r', hr', s', h1, h2, h3⟩

theorem scoreRows_scored (query : List ℚ) (threshold : ℚ) :
    ∀ (rows : List ScanRow) (l : List SearchResult),
      scoreRows query threshold rows = .ok l →
      ∀ r ∈ rows, ∃ s : ℝ, cosineSimilarity query r.embedding = .ok s := by
  intro rows
  induction rows with
  | nil =>
    intro l _ r hr
    simp at hr
  | cons r rest ih =>
    intro l h r' hr'
    rw [scoreRows] at h
    cases hc : cosineSimilarity query r.embedding with
    | error e => rw [hc] at h; cases h
    | ok s =>
      rw [hc] at h
      cases ht : scoreRows query threshold rest with
      | error e => rw [ht] at h; cases h
      | ok tail =>
        rcases List.mem_cons.mp hr' with hr' | hr'
        · subst hr'
          exact ⟨s, hc⟩
        · exact ih tail ht r' hr'

theorem scoreRows_pairwise (query : List ℚ) (threshold : ℚ) :
    ∀ (rows : List ScanRow) (l : List SearchResult),
      scoreRows query threshold rows = .ok l →
      rows.Pairwise scanKeyLE → l.Pairwise resultKeyLE := by
  intro rows
  induction rows with
  | nil =>
    intro l h _
    rw [scoreRows] at h
    cases h
    simp
  | cons r rest ih =>
    intro l h hrows
    rw [scoreRows] at h
    rcases List.pairwise_cons.mp hrows with ⟨hr, hrest⟩
    cases hc : cosineSimilarity query r.embedding with
    | error e => rw [hc] at h; cases h
    | ok s =>
      rw [hc] at h
      cases ht : scoreRows query threshold rest with
      | error e => rw [ht] at h; cases h
      | ok tail =>
        rw [ht] at h
        simp only [] at h
        have htail := ih tail ht hrest
        by_cases hth : ((threshold : ℚ) : ℝ) ≤ s
        · rw [if_pos hth] at h
          cases h
          rw [List.pairwise_cons]
          refine ⟨?_, htail⟩
          intro y hy
          rcases (scoreRows_mem query threshold rest tail ht y).mp hy
            with ⟨r', hr', s', _, _, hy3⟩
          subst hy3
          exact hr r' hr'
        · rw [if_neg hth] at h
          cases h
          exact htail

theorem scanKeyLE_trans : ∀ (a b c : ScanRow),
    scanKeyLE a b → scanKeyLE b c → scanKeyLE a c := by
  intro a b c hab hbc
  unfold scanKeyLE at *
  rcases hab with h1 | ⟨h1, h1'⟩ <;> rcases hbc with h2 | ⟨h2, h2'⟩
  · exact Or.inl (lt_trans h1 h2)
  · exact Or.inl (h2 ▸ h1)
  · exact Or.inl (h1 ▸ h2)
  · exact Or.inr ⟨h1.trans h2, le_trans h1' h2'⟩

theorem scanKeyLE_total : ∀ (a b : ScanRow), scanKeyLE a b ∨ scanKeyLE b a := by
  intro a b
  unfold scanKeyLE
  rcases lt_trichotomy a.documentId b.documentId with h | h | h
  · exact Or.inl (Or.inl h)
  · rcases le_total a.chunkIndex b.chunkIndex with h' | h'
    · exact Or.inl (Or.inr ⟨h, h'⟩)
    · exact Or.inr (Or.inr ⟨h.symm, h'⟩)
  · exact Or.inr (Or.inl h)

theorem scanRows_pairwise (db : Db) (f : SearchFilters) :
    (scanRows db f).Pairwise scanKeyLE := by
  unfold scanRows
  have h := @List.sorted_mergeSort ScanRow
    (fun a b : ScanRow => decide (a.documentId < b.documentId ∨
      (a.documentId = b.documentId ∧ a.chunkIndex ≤ b.chunkIndex)))
    (fun a b c hab hbc => by
      rw [decide_eq_true_eq] at *
      exact scanKeyLE_trans a b c hab hbc)
    (fun a b => by
      rw [Bool.or_eq_true, decide_eq_true_eq, decide_eq_true_eq]
      exact scanKeyLE_total a b)
    (db.chunks.filterMap (fun c =>
      (db.documents.find? (fun r => r.id = c.documentId)).bind (fun d =>
        if rowPassesFilters f d then some (scanRowOf c d) else none)))
  refine h.imp ?_
  intro a b hab
  rw [decide_eq_true_eq] at hab
  exact hab

theorem mem_scanRows (db : Db) (f : SearchFilters) (r : ScanRow) :
    r ∈ scanRows db f ↔ ∃ c ∈ db.chunks, ∃ d : DocRow,
      db.documents.find? (fun x => x.id = c.documentId) = some d ∧
      rowPassesFilters f d = true ∧ r = scanRowOf c d := by
  unfold scanRows
  rw [List.mem_mergeSort, List.mem_filterMap]
  constructor
  · rintro ⟨c, hc, hr⟩
    rcases Option.bind_eq_some.mp hr with ⟨d, hd, hif⟩
    by_cases hp : rowPassesFilters f d
    · rw [if_pos hp] at hif
      cases hif
      exact ⟨c, hc, d, hd, hp, rfl⟩
    · rw [if_neg hp] at hif
      cases hif
  · rintro ⟨c, hc, d, hd, hp, hr⟩
    subst hr
    exact ⟨c, hc, by rw [hd]; simp [hp]⟩

/-- C1: whenever `searchSimilar` returns a result list: the list is at most
`limit` long (default 10); every returned entry comes from a stored chunk
whose joined document row passes the metadata filters and whose cosine
similarity to the query is at least `threshold` (default 0.75); the list is
sorted by similarity descending with ties broken by
`(documentId, chunkIndex)` ascending; every chunk of the filtered scan was
scored; and when the list is below `limit` it contains every qualifying
chunk (truncation is the only reason for omission). -/
theorem searchSimilar_spec (db : Db) (embedding : List ℚ)
    (opts : SearchOptions) (res : List SearchResult)
    (h : searchSimilar db embedding opts = .ok res) :
    res.length ≤ opts.limit.getD 10 ∧
    (∀ x ∈ res, ∃ c ∈ db.chunks, ∃ d : DocRow,
      db.documents.find? (fun y => y.id = c.documentId) = some d ∧
      rowPassesFilters opts.filters d = true ∧
      ∃ s : ℝ, cosineSimilarity embedding c.embedding = .ok s ∧
        ((opts.threshold.getD (3/4) : ℚ) : ℝ) ≤ s ∧
        x = resultOf (scanRowOf c d) s) ∧
    res.Pairwise rankedBefore ∧
    (∀ r ∈ scanRows db opts.filters, ∃ s : ℝ,
      cosineSimilarity embedding r.embedding = .ok s) ∧
    (res.length < opts.limit.getD 10 →
      ∀ r ∈ scanRows db opts.filters, ∀ s : ℝ,
        cosineSimilarity embedding r.embedding = .ok s →
        ((opts.threshold.getD (3/4) : ℚ) : ℝ) ≤ s →
        resultOf r s ∈ res) ∧
    searchSimilar db embedding ⟨none, none, opts.filters⟩ =
      searchSimilar db embedding ⟨some 10, some (3/4), opts.filters⟩ := by
  unfold searchSimilar at h
  cases hall : scoreRows embedding (opts.threshold.getD (3/4))
      (scanRows db opts.filters) with
  | error e =>
    rw [hall] at h
    cases h
  | ok all =>
    rw [hall] at h
    simp only [] at h
    cases h
    have hmemall := scoreRows_mem embedding (opts.threshold.getD (3/4))
      (scanRows db opts.filters) all hall
    have hscored := scoreRows_scored embedding (opts.threshold.getD (3/4))
      (scanRows db opts.filters) all hall
    have hpairall := scoreRows_pairwise embedding (opts.threshold.getD (3/4))
      (scanRows db opts.filters) all hall (scanRows_pairwise db opts.filters)
    have hperm := sortBySimDesc_perm all
    have hsorted := pairwise_sortBySimDesc all hpairall
    refine ⟨?_, ?_, ?_, ?_, ?_, rfl⟩
    · rw [List.length_take]
      exact min_le_left _ _
    · intro x hx
      have hx' : x ∈ all :=
        hperm.mem_iff.mp (List.take_subset _ _ hx)
      rcases (hmemall x).mp hx' with ⟨r, hr, s, h1, h2, h3⟩
      rcases (mem_scanRows db opts.filters r).mp hr with ⟨c, hc, d, hd, hp, hrc⟩
      subst hrc
      exact ⟨c, hc, d, hd, hp, s, h1, h2, h3⟩
    · refine List.Pairwise.sublist (List.take_sublist _ _) ?_
      exact hsorted.imp (fun hab => hab)
    · exact hscored
    · intro hlt r hr s h1 h2
      have hlen : (sortBySimDesc all).length ≤ opts.limit.getD 10 := by
        rw [List.length_take] at hlt
        omega
      rw [List.take_of_length_le hlen]
      exact hperm.mem_iff.mpr ((hmemall _).mpr ⟨r, hr, s, h1, h2, rfl⟩)

/-- Witness for C1: the search over an empty store returns the empty result
list, which satisfies the default limit bound. -/
theorem searchSimilar_spec_witness :
    searchSimilar ⟨[], []⟩ []
        ⟨none, none, ⟨none, none, none, none, none⟩⟩ = .ok [] ∧
      ([] : List SearchResult).length ≤
        (⟨none, none, ⟨none, none, none, none, none⟩⟩ :
          SearchOptions).limit.getD 10 := by
  have hscan : scanRows ⟨[], []⟩ ⟨none, none, none, none, none⟩ = [] := by
    unfold scanRows
    simp
  have h0 : searchSimilar ⟨[], []⟩ []
      ⟨none, none, ⟨none, none, none, none, none⟩⟩ = .ok [] := by
    unfold searchSimilar
    rw [hscan, scoreRows]
    simp only []
    rw [sortBySimDesc]
    rfl
  exact ⟨h0, (searchSimilar_spec ⟨[], []⟩ []
    ⟨none, none, ⟨none, none, none, none, none⟩⟩ [] h0).1⟩

end VectorDb
